import Mathlib

/-!
Verification of the paleae filtering and chunking core.

Shallow embedding of the repository's code:
* `src/paleae.py` — text classification (`is_text_file`), ignore-file
  parsing (`read_paleaeignore`), pattern compilation (`compile_patterns`),
  pattern evaluation (`matches_any`), file collection (`collect_files`)
  and snapshot building (`build_snapshot`).
* `src/milestones/paleaeone.py` — the chunkers `chunk_text_by_lines` and
  `chunk_python_by_defs`, and the chunk-strategy dispatch of
  `generate_rows`.

Modelling conventions: Python strings are Lean `String`s, bytes are
`List Nat`, a compiled regular expression is abstracted as its `search`
function `String → Bool`, filesystem state is passed explicitly
(`PFile`, `Entry`), and exceptions become `Except`/`Option` values.
-/

namespace Paleae

/-- The ASCII whitespace stripped by Python's `str.strip()` (the model
restricts Python's Unicode whitespace to its ASCII core). -/
def pyWs (c : Char) : Bool :=
  c = ' ' || c = '\t' || c = '\n' || c = '\r' || c = '\x0b' || c = '\x0c'

/-- Python `str.strip()`: drop leading and trailing whitespace. -/
def pyStrip (s : String) : String :=
  String.mk (((s.data.dropWhile pyWs).reverse.dropWhile pyWs).reverse)

/-- Worker for `pySplitlines`: emit the accumulated (reversed) line at each
line boundary; at the end of input emit the remainder only when nonempty,
so a trailing newline yields no empty final line — as Python does. -/
def slGo : List Char → List Char → List (List Char)
  | [], acc => if acc.isEmpty then [] else [acc.reverse]
  | '\r' :: '\n' :: rest, acc => acc.reverse :: slGo rest []
  | '\r' :: rest, acc => acc.reverse :: slGo rest []
  | '\n' :: rest, acc => acc.reverse :: slGo rest []
  | c :: rest, acc => slGo rest (c :: acc)

/-- Python `str.splitlines()` over the common line endings
`\n`, `\r`, `\r\n` (the model leaves out the rarer Unicode boundaries). -/
def pySplitlines (s : String) : List String :=
  (slGo s.data []).map String.mk

/-- `TEXT_EXTS` of src/paleae.py. -/
def TEXT_EXTS : List String :=
  [".py", ".md", ".rst", ".txt", ".json", ".yaml", ".yml", ".toml", ".ini",
   ".cfg", ".xml", ".csv", ".tsv", ".html", ".css", ".js", ".ts", ".tsx",
   ".c", ".h", ".cpp", ".hpp", ".java", ".kt", ".go", ".rs", ".rb", ".php",
   ".sh", ".ps1"]

/-- `MAX_SIZE` of src/paleae.py: 10 MiB. -/
def MAX_SIZE : Nat := 10 * 1024 * 1024

/-- `token_estimate` of src/paleae.py. -/
def token_estimate (text : String) : Nat :=
  if text = "" then 0 else max 1 (text.length / 4)

/-- Python `str.lower()` (ASCII model). -/
def strLower (s : String) : String :=
  String.mk (s.data.map Char.toLower)

/-- A filesystem entry as `is_text_file` observes it: whether it is a
regular file, its extension (`path.suffix`), its content bytes (so its
`stat` size is `bytes.length`), and whether `stat` respectively
`open`/`read` succeed (an `OSError` from either lands in the function's
`except` arm). -/
structure PFile where
  isFile : Bool
  suffix : String
  bytes : List Nat
  statOk : Bool
  openOk : Bool

/-- A UTF-8 continuation byte. -/
def utf8Cont (b : Nat) : Bool := 128 ≤ b && b < 192

/-- Strict UTF-8 validity of a byte sequence, as Python's
`bytes.decode("utf-8")` checks it: no overlong forms, no surrogates, no
code points beyond U+10FFFF, and no truncated final sequence. -/
def utf8Valid : List Nat → Bool
  | [] => true
  | b :: rest =>
    if b < 128 then utf8Valid rest
    else if b < 194 then false
    else if b < 224 then
      match rest with
      | b1 :: r => utf8Cont b1 && utf8Valid r
      | [] => false
    else if b < 240 then
      match rest with
      | b1 :: b2 :: r =>
          utf8Cont b1 && utf8Cont b2 &&
          !(b == 224 && decide (b1 < 160)) && !(b == 237 && decide (160 ≤ b1)) &&
          utf8Valid r
      | _ => false
    else if b < 245 then
      match rest with
      | b1 :: b2 :: b3 :: r =>
          utf8Cont b1 && utf8Cont b2 && utf8Cont b3 &&
          !(b == 240 && decide (b1 < 144)) && !(b == 244 && decide (144 ≤ b1)) &&
          utf8Valid r
      | _ => false
    else false

/-- `is_text_file` of src/paleae.py: not a regular file → false; `stat`
failure → false; empty file → by extension; oversized → false; otherwise
sniff the first KiB for null bytes and UTF-8 validity (an `open` failure,
like any `OSError`, is caught and yields false). -/
def is_text_file (f : PFile) : Bool :=
  if !f.isFile then false
  else if !f.statOk then false
  else if f.bytes.length = 0 then
    TEXT_EXTS.contains (strLower f.suffix) || f.suffix == ""
  else if f.bytes.length > MAX_SIZE then false
  else if !f.openOk then false
  else
    let chunk := f.bytes.take (min 1024 f.bytes.length)
    if chunk.contains 0 then false
    else utf8Valid chunk

/-- A compiled pattern, abstracted as its `re.Pattern.search` test. -/
abbrev Pat := String → Bool

/-- `matches_any` of src/paleae.py. -/
def matches_any (text : String) (patterns : List Pat) : Bool :=
  patterns.any (fun p => p text)

/-- Loop of `read_paleaeignore` (src/paleae.py): strip each line, skip
blanks and `#` comments, route `!`-lines (trimmed of the bang and
following whitespace) to the negative list and the rest to the positive
list, preserving order. -/
def ignoreGo : List String → List String → List String → List String × List String
  | [], pos, neg => (pos, neg)
  | item :: rest, pos, neg =>
    let line := pyStrip item
    if line == "" || line.startsWith "#" then ignoreGo rest pos neg
    else if line.startsWith "!" then
      ignoreGo rest pos (neg ++ [pyStrip (line.drop 1)])
    else ignoreGo rest (pos ++ [line]) neg

/-- `read_paleaeignore` of src/paleae.py, applied to the ignore file's
content (the surrounding file-existence and read-error handling is I/O). -/
def read_paleaeignore (content : String) : List String × List String :=
  ignoreGo (pySplitlines content) [] []

/-- The `!`-prefix rule for positive lines, as the spec states it: a
non-blank, non-comment, non-negated line contributes its stripped self. -/
def posRule (item : String) : Option String :=
  let line := pyStrip item
  if line == "" || line.startsWith "#" then none
  else if line.startsWith "!" then none
  else some line

/-- The `!`-prefix rule for negative lines, as the spec states it: a
non-blank, non-comment line starting with `!` contributes its remainder,
trimmed of the `!` and surrounding whitespace. -/
def negRule (item : String) : Option String :=
  let line := pyStrip item
  if line == "" || line.startsWith "#" then none
  else if line.startsWith "!" then some (pyStrip (line.drop 1))
  else none

/-- `compile_patterns` of src/paleae.py, with `re.compile` (Python
standard library, external to the repository) abstracted as `rc`; a
compilation failure raises `PaleaeError` naming the offending pattern. -/
def compile_patterns {α : Type} (rc : String → Except String α) :
    List String → Except String (List α)
  | [] => .ok []
  | p :: rest =>
    match rc p with
    | .error e => .error ("Invalid regex '" ++ p ++ "': " ++ e)
    | .ok r =>
      match compile_patterns rc rest with
      | .error m => .error m
      | .ok rs => .ok (r :: rs)

/-- One yield of `root.rglob("*")` as `collect_files` observes it: the
forward-slash relative path (`path.relative_to(root).as_posix()`) and the
file state behind it. -/
structure Entry where
  rel : String
  file : PFile

/-- Bool lexicographic order on character lists (Python's string
comparison is by code point). -/
def lexLe : List Char → List Char → Bool
  | [], _ => true
  | _ :: _, [] => false
  | a :: as, b :: bs => if a < b then true else if a = b then lexLe as bs else false

/-- Python's `<=` on strings. -/
def strLeB (a b : String) : Bool := lexLe a.data b.data

/-- Character-list prefix test (used to build concrete directory-style
patterns in counterexamples). -/
def lexPre : List Char → List Char → Bool
  | [], _ => true
  | _ :: _, [] => false
  | a :: as, b :: bs => a == b && lexPre as bs

/-- `p` is a prefix of `s` (by code points). -/
def strHasPre (p s : String) : Bool := lexPre p.data s.data

/-- Insert into a sorted list (worker for `pySorted`). -/
def insertLe (x : String) : List String → List String
  | [] => [x]
  | y :: ys => if strLeB x y then x :: y :: ys else y :: insertLe x ys

/-- Python `sorted` on strings (insertion sort; same order). -/
def pySorted : List String → List String
  | [] => []
  | x :: xs => insertLe x (pySorted xs)

/-- The per-file filter of `collect_files` (src/paleae.py lines 200-216):
step 1 marks the path excluded when the exclude set or the ignore-file
positives match; step 2 clears that mark when an ignore-file negative
matches; step 3 requires a nonempty include set to match; finally the
entry must classify as text. -/
def acceptFile (inc exc ipos ineg : List Pat) (ent : Entry) : Bool :=
  let e1 := matches_any ent.rel exc || matches_any ent.rel ipos
  let isExcluded := if e1 && matches_any ent.rel ineg then false else e1
  if isExcluded then false
  else if !inc.isEmpty && !matches_any ent.rel inc then false
  else is_text_file ent.file

/-- Loop of `collect_files`: walk the traversal yields in order; an
`OSError` raised during iteration aborts the whole call (the partial
`files` accumulator is discarded); at the end the accepted relative paths
are returned sorted. -/
def collectGo (root : String) (inc exc ipos ineg : List Pat) :
    List (Except String Entry) → List String → Except String (List String)
  | [], files => .ok (pySorted files)
  | .error e :: _, _ => .error ("Error traversing " ++ root ++ ": " ++ e)
  | .ok ent :: rest, files =>
    if !ent.file.isFile then collectGo root inc exc ipos ineg rest files
    else if acceptFile inc exc ipos ineg ent then
      collectGo root inc exc ipos ineg rest (files ++ [ent.rel])
    else collectGo root inc exc ipos ineg rest files

/-- `collect_files` of src/paleae.py: fails up front when the root is not
a directory, then filters the traversal yields (`walk` lists them in
`rglob` order; an `Except.error` element is an `OSError` raised by the
iteration at that point). -/
def collect_files (root : String) (rootIsDir : Bool)
    (walk : List (Except String Entry)) (inc exc ipos ineg : List Pat) :
    Except String (List String) :=
  if !rootIsDir then .error ("Directory not found: " ++ root)
  else collectGo root inc exc ipos ineg walk []

/-- One record of a snapshot's `files` list (src/paleae.py
`build_snapshot`), with `hashlib.sha256` abstracted as the `sha`
parameter of `build_snapshot`. -/
structure FileData where
  path : String
  content : String
  size_chars : Nat
  sha256 : String
  estimated_tokens : Nat

/-- The snapshot data `build_snapshot` computes: the `files` list and the
`meta.summary` totals. -/
structure Snapshot where
  total_files : Nat
  total_chars : Nat
  estimated_tokens : Nat
  files : List FileData

/-- Loop of `build_snapshot`: a file that fails to read (`readF` returns
`none`) or whose content strips to empty is skipped; the rest contribute
a record and their character/token counts. -/
def snapGo (readF : String → Option String) (sha : String → String) :
    List String → List FileData × Nat × Nat
  | [] => ([], 0, 0)
  | rel :: rest =>
    match readF rel with
    | none => snapGo readF sha rest
    | some content =>
      if pyStrip content == "" then snapGo readF sha rest
      else
        let r := snapGo readF sha rest
        (⟨rel, content, content.length, sha content, token_estimate content⟩ :: r.1,
         content.length + r.2.1, token_estimate content + r.2.2)

/-- `build_snapshot` of src/paleae.py, reduced to its data content:
`readF` stands for `Path.read_text` (`none` = `OSError`,
`PermissionError` or `UnicodeDecodeError`), `sha` for `hashlib.sha256`
hex digests. -/
def build_snapshot (readF : String → Option String) (sha : String → String)
    (rel_files : List String) : Snapshot :=
  let r := snapGo readF sha rel_files
  ⟨r.1.length, r.2.1, r.2.2, r.1⟩

/-- A chunk of src/milestones/paleaeone.py: 1-based start line, 1-based
end line, and the chunk's text. -/
abbrev PyChunk := Nat × Nat × String

/-- The join separator of the milestone chunkers: the file writes
`"\\n".join(...)`, a two-character backslash-n separator. -/
def joinNl (buf : List String) : String := String.intercalate "\\n" buf

/-- The character budget one line occupies in `chunk_text_by_lines`:
`len(line) + 1` ("account for newline"). -/
def nlLen (l : String) : Nat := l.length + 1

/-- Total budget of a run of lines. -/
def sumNl (ls : List String) : Nat := (ls.map nlLen).sum

/-- The lines of 1-based range `[s, e]`: Python's `lines[s-1:e]`. -/
def sliceL (lines : List String) (s e : Nat) : List String :=
  (lines.drop (s - 1)).take (e + 1 - s)

/-- Loop of `chunk_text_by_lines` (src/milestones/paleaeone.py lines
192-202): over the remaining lines with 1-based index `i`, current buffer
`buf` (the lines of the open chunk, which began at line `start`) and its
accumulated budget `cur`; when adding the next line would overflow
`max_chars` and the buffer is nonempty, the open chunk is emitted and a
new one starts at that line. Returns the emitted chunks and the final
open buffer with its start line. -/
def chunkGo (max_chars : Int) :
    List String → Nat → List String → Nat → Nat →
    List PyChunk × List String × Nat
  | [], _, buf, start, _ => ([], buf, start)
  | line :: rest, i, buf, start, cur =>
    if ((cur + (line.length + 1) : Nat) : Int) > max_chars ∧ buf ≠ [] then
      let r := chunkGo max_chars rest (i + 1) [line] i (line.length + 1)
      ((start, i - 1, joinNl buf) :: r.1, r.2)
    else
      chunkGo max_chars rest (i + 1) (buf ++ [line]) start (cur + (line.length + 1))

/-- `chunk_text_by_lines` of src/milestones/paleaeone.py: run the greedy
loop over `text.splitlines()`, flush the last open buffer, and fall back
to a single `(1, 1, text)` chunk when nothing was produced. -/
def chunk_text_by_lines (text : String) (max_chars : Int) : List PyChunk :=
  let lines := pySplitlines text
  let r := chunkGo max_chars lines 1 [] 1 0
  let chunks := if r.2.1 = [] then r.1 else r.1 ++ [(r.2.2, lines.length, joinNl r.2.1)]
  if chunks = [] then [(1, 1, text)] else chunks

/-- Bool order on boundary pairs: Python's tuple comparison, as
`boundaries.sort()` uses it. -/
def pairLeB (a b : Nat × Nat) : Bool :=
  a.1 < b.1 || (a.1 == b.1 && a.2 ≤ b.2)

/-- Insert into a sorted boundary list. -/
def insertPair (x : Nat × Nat) : List (Nat × Nat) → List (Nat × Nat)
  | [] => [x]
  | y :: ys => if pairLeB x y then x :: y :: ys else y :: insertPair x ys

/-- `boundaries.sort()` (insertion sort; same order). -/
def sortPairs : List (Nat × Nat) → List (Nat × Nat)
  | [] => []
  | x :: xs => insertPair x (sortPairs xs)

/-- `chunk_python_by_defs` of src/milestones/paleaeone.py. `ast.parse`
(Python standard library, external to the repository) is abstracted as
the `parseRes` argument: `none` for a syntax error, otherwise the
`(lineno, end_lineno)` pairs of the top-level `FunctionDef`,
`AsyncFunctionDef` and `ClassDef` nodes of `tree.body`. Each construct's
line span becomes a chunk; a span whose joined text exceeds `max_chars`
is re-split by `chunk_text_by_lines` with line numbers mapped back. -/
def chunk_python_by_defs (text : String) (max_chars : Int)
    (parseRes : Option (List (Nat × Nat))) : List PyChunk :=
  match parseRes with
  | none => chunk_text_by_lines text max_chars
  | some boundaries =>
    if boundaries = [] then chunk_text_by_lines text max_chars
    else
      (sortPairs boundaries).flatMap (fun b =>
        let segment := joinNl (((pySplitlines text).drop (b.1 - 1)).take (b.2 - (b.1 - 1)))
        if (segment.length : Int) ≤ max_chars then [(b.1, b.2, segment)]
        else
          (chunk_text_by_lines segment max_chars).map
            (fun c => (b.1 + (c.1 - 1), b.1 + (c.2.1 - 1), c.2.2)))

/-- The chunk-strategy dispatch of `generate_rows`
(src/milestones/paleaeone.py lines 398-410): `functions`/`classes` on
Python sources go through `chunk_python_by_defs`, `lines` through
`chunk_text_by_lines`, and `file` (the remaining strategies) yields one
whole-file chunk unless the text exceeds `max_chars`, in which case it
falls back to line chunking. -/
def generate_chunks (language chunk_by : String)
    (parseRes : Option (List (Nat × Nat))) (text : String) (max_chars : Int) :
    List PyChunk :=
  if language = "python" ∧ (chunk_by = "functions" ∨ chunk_by = "classes") then
    chunk_python_by_defs text max_chars parseRes
  else if chunk_by = "lines" then chunk_text_by_lines text max_chars
  else if (text.length : Int) > max_chars then chunk_text_by_lines text max_chars
  else
    [(1, if (pySplitlines text).length > 0 then (pySplitlines text).length else 1, text)]

/-- The chunk ranges tile `[a, n]` exactly: the first chunk starts at
`a`, each chunk has `start ≤ end`, each next chunk starts right after the
previous one ends, and the last chunk ends at `n`. -/
def coversB : Nat → List PyChunk → Nat → Bool
  | a, [], n => a == n + 1
  | a, (s, e, _) :: rest, n => s == a && decide (a ≤ e) && coversB (e + 1) rest n

/-- Every chunk's text is exactly its line range joined with the
chunker's separator: whole lines, no mid-line splitting. -/
def textsOkB (lines : List String) (cs : List PyChunk) : Bool :=
  cs.all (fun c => c.2.2 == joinNl (sliceL lines c.1 c.2.1))

/-- Every multi-line chunk fits the `max_chars` budget (a chunk may
overflow it only when it is a single line placed alone). -/
def boundOkB (lines : List String) (mx : Int) (cs : List PyChunk) : Bool :=
  cs.all (fun c => c.1 == c.2.1 || decide ((sumNl (sliceL lines c.1 c.2.1) : Int) ≤ mx))

/-- Chunks are greedy/maximal: for each adjacent pair, the earlier
chunk's budget plus the budget of the next chunk's first line overflows
`max_chars` — the chunk was closed exactly because adding the next line
would exceed the budget. -/
def maximalOkB (lines : List String) (mx : Int) : List PyChunk → Bool
  | [] => true
  | [_] => true
  | (s, e, _) :: c2 :: rest =>
    decide ((sumNl (sliceL lines s e) + nlLen (lines.getD (c2.1 - 1) "") : Int) > mx) &&
    maximalOkB lines mx (c2 :: rest)

/-- Every line longer than `max_chars` sits alone in its own chunk: a
multi-line chunk holds no line over the budget. -/
def longAloneB (lines : List String) (mx : Int) (cs : List PyChunk) : Bool :=
  cs.all (fun c =>
    c.1 == c.2.1 || (sliceL lines c.1 c.2.1).all (fun l => decide ((l.length : Int) ≤ mx)))

/-- The record `build_snapshot` keeps for one relative path, when it
keeps one: `none` when the read fails or the content strips to empty. -/
def snapKeep (readF : String → Option String) (sha : String → String)
    (rel : String) : Option FileData :=
  match readF rel with
  | none => none
  | some content =>
    if pyStrip content == "" then none
    else some ⟨rel, content, content.length, sha content, token_estimate content⟩

/-- The final flush of `chunk_text_by_lines`: the emitted chunks followed
by the open buffer as a last chunk ending at line `n`. -/
def flushChunks (n : Nat) (r : List PyChunk × List String × Nat) : List PyChunk :=
  r.1 ++ [(r.2.2, n, joinNl r.2.1)]

/-- All chunk-list invariants at once: exact tiling from `a` to
`lines.length`, texts matching the line slices, multi-line chunks within
budget, and greedy maximality. -/
def goodChunksB (lines : List String) (mx : Int) (a : Nat) (cs : List PyChunk) : Bool :=
  coversB a cs lines.length && textsOkB lines cs && boundOkB lines mx cs &&
    maximalOkB lines mx cs

theorem sumNl_nil : sumNl [] = 0 := rfl

theorem sumNl_cons (l : String) (ls : List String) :
    sumNl (l :: ls) = nlLen l + sumNl ls := by
  simp [sumNl]

theorem sumNl_append (a b : List String) :
    sumNl (a ++ b) = sumNl a + sumNl b := by
  simp [sumNl]

theorem sumNl_singleton (l : String) : sumNl [l] = l.length + 1 := by
  simp [sumNl, nlLen]

theorem nlLen_le_sumNl {l : String} {ls : List String} (h : l ∈ ls) :
    nlLen l ≤ sumNl ls := by
  exact List.single_le_sum (fun x _ => Nat.zero_le x) _ (List.mem_map_of_mem nlLen h)

theorem mem_insertLe (x y : String) (l : List String) :
    x ∈ insertLe y l ↔ x = y ∨ x ∈ l := by
  induction l with
  | nil => simp [insertLe]
  | cons z zs ih =>
    by_cases h : strLeB y z = true
    · simp [insertLe, h]
    · simp only [insertLe, h, Bool.false_eq_true, if_false, List.mem_cons, ih]
      tauto

theorem mem_pySorted (x : String) (l : List String) : x ∈ pySorted l ↔ x ∈ l := by
  induction l with
  | nil => simp [pySorted]
  | cons y ys ih => simp [pySorted, mem_insertLe, ih]

theorem ignoreGo_spec (ls pos neg : List String) :
    ignoreGo ls pos neg =
      (pos ++ ls.filterMap posRule, neg ++ ls.filterMap negRule) := by
  induction ls generalizing pos neg with
  | nil => simp [ignoreGo]
  | cons item rest ih =>
    by_cases h1 : (pyStrip item == "" || (pyStrip item).startsWith "#") = true
    · simp [ignoreGo, posRule, negRule, h1, ih]
    · by_cases h2 : (pyStrip item).startsWith "!" = true
      · simp [ignoreGo, posRule, negRule, h1, h2, ih]
      · simp [ignoreGo, posRule, negRule, h1, h2, ih]

/-- C6: `read_paleaeignore` partitions the non-blank, non-comment lines
of the ignore file's content (each trimmed of surrounding whitespace)
into the positive and negative lists exactly by the `!`-prefix rule: a
line starting with `!` contributes its remainder, trimmed of the `!` and
following whitespace, to the negative list, every other surviving line
goes to the positive list as-is, and both lists preserve file order. -/
theorem read_paleaeignore_partition (content : String) :
    read_paleaeignore content =
      ((pySplitlines content).filterMap posRule,
       (pySplitlines content).filterMap negRule) := by
  simpa [read_paleaeignore] using ignoreGo_spec (pySplitlines content) [] []

/-- C7: pattern compilation fails exactly when some supplied string fails
to compile, the raised error names the offending pattern string and the
underlying regex error, and on all-valid input it returns one compiled
pattern per input string, in order. -/
theorem compile_patterns_correct {α : Type} (rc : String → Except String α)
    (ps : List String) :
    (match compile_patterns rc ps with
     | .ok rs => List.Forall₂ (fun p r => rc p = .ok r) ps rs
     | .error m =>
       ∃ p e, p ∈ ps ∧ rc p = .error e ∧ m = "Invalid regex '" ++ p ++ "': " ++ e)
    ∧ ((∃ rs, compile_patterns rc ps = .ok rs) ↔ ∀ p ∈ ps, ∃ r, rc p = .ok r) := by
  induction ps with
  | nil =>
    constructor
    · simp only [compile_patterns]
      exact List.Forall₂.nil
    · simp [compile_patterns]
  | cons p rest ih =>
    obtain ⟨ih1, ih2⟩ := ih
    cases hp : rc p with
    | error e =>
      constructor
      · simp only [compile_patterns, hp]
        exact ⟨p, e, List.mem_cons_self p rest, hp, rfl⟩
      · constructor
        · rintro ⟨rs, hrs⟩
          simp [compile_patterns, hp] at hrs
        · intro h
          rcases h p (List.mem_cons_self p rest) with ⟨r, hr⟩
          rw [hp] at hr
          exact absurd hr (by simp)
    | ok r =>
      cases hrest : compile_patterns rc rest with
      | error m =>
        constructor
        · simp only [compile_patterns, hp, hrest]
          rw [hrest] at ih1
          rcases ih1 with ⟨q, e, hq, hrq, hm⟩
          exact ⟨q, e, List.mem_cons_of_mem p hq, hrq, hm⟩
        · constructor
          · rintro ⟨rs, hrs⟩
            simp [compile_patterns, hp, hrest] at hrs
          · intro h
            have : ∃ rs, compile_patterns rc rest = .ok rs :=
              ih2.mpr fun q hq => h q (List.mem_cons_of_mem p hq)
            rcases this with ⟨rs, hrs⟩
            rw [hrest] at hrs
            exact absurd hrs (by simp)
      | ok rs =>
        constructor
        · simp only [compile_patterns, hp, hrest]
          rw [hrest] at ih1
          exact List.Forall₂.cons hp ih1
        · constructor
          · rintro ⟨rs0, _⟩
            intro q hq
            rcases List.mem_cons.mp hq with hq | hq
            · exact ⟨r, hq ▸ hp⟩
            · exact (ih2.mp ⟨rs, hrest⟩) q hq
          · intro _
            exact ⟨r :: rs, by simp [compile_patterns, hp, hrest]⟩

theorem snapKeep_path {readF : String → Option String} {sha : String → String}
    {rel : String} {fd : FileData} (h : snapKeep readF sha rel = some fd) :
    fd.path = rel := by
  unfold snapKeep at h
  split at h
  · exact absurd h (by simp)
  · split at h
    · exact absurd h (by simp)
    · cases h
      rfl

theorem snapGo_spec (readF : String → Option String) (sha : String → String)
    (rels : List String) :
    snapGo readF sha rels =
      (rels.filterMap (snapKeep readF sha),
       ((rels.filterMap (snapKeep readF sha)).map FileData.size_chars).sum,
       ((rels.filterMap (snapKeep readF sha)).map FileData.estimated_tokens).sum) := by
  induction rels with
  | nil => simp [snapGo]
  | cons rel rest ih =>
    cases hr : readF rel with
    | none => simp [snapGo, snapKeep, hr, ih]
    | some c =>
      by_cases hb : (pyStrip c == "") = true
      · simp [snapGo, snapKeep, hr, hb, ih]
      · simp [snapGo, snapKeep, hr, hb, ih]

/-- C10: `build_snapshot` silently omits every listed file whose read
fails or whose content is empty or whitespace-only — its `files` list is
exactly the kept records, such a path never appears among them, the
summary counts only kept files (so `total_files` is at most the number of
accepted paths), and it can be strictly smaller, as the concrete
whitespace-only instance shows. -/
theorem build_snapshot_omits_blank (readF : String → Option String)
    (sha : String → String) (rel_files : List String) :
    (build_snapshot readF sha rel_files).files = rel_files.filterMap (snapKeep readF sha)
    ∧ (build_snapshot readF sha rel_files).total_files =
        (build_snapshot readF sha rel_files).files.length
    ∧ (∀ rel ∈ rel_files, snapKeep readF sha rel = none →
        ∀ fd ∈ (build_snapshot readF sha rel_files).files, fd.path ≠ rel)
    ∧ (build_snapshot readF sha rel_files).total_files ≤ rel_files.length
    ∧ (build_snapshot (fun _ => some " ") (fun _ => "") ["a"]).total_files <
        (["a"] : List String).length := by
  have hgo := snapGo_spec readF sha rel_files
  refine ⟨?_, ?_, ?_, ?_, ?_⟩
  · simp [build_snapshot, hgo]
  · simp [build_snapshot, hgo]
  · intro rel _ hnone fd hfd hpath
    simp only [build_snapshot, hgo] at hfd
    rcases List.mem_filterMap.mp hfd with ⟨q, _, hq⟩
    have : q = rel := by rw [← hpath, snapKeep_path hq]
    rw [this, hnone] at hq
    exact absurd hq (by simp)
  · simp only [build_snapshot, hgo]
    exact List.length_filterMap_le _ _
  · decide

theorem is_text_file_ext_allows_empty (f : PFile)
    (h1 : f.isFile = true) (h2 : f.statOk = true) (h3 : f.bytes = [])
    (h4 : strLower f.suffix ∈ TEXT_EXTS ∨ f.suffix = "") :
    is_text_file f = true := by
  simp only [is_text_file, h1, h2, h3]
  simp [h4]

theorem ite_false_eq_true {c : Prop} [Decidable c] {t : Bool}
    (h : (if c then false else t) = true) : ¬c ∧ t = true := by
  by_cases hc : c
  · rw [if_pos hc] at h
    exact absurd h (by simp)
  · rw [if_neg hc] at h
    exact ⟨hc, h⟩

theorem acceptFile_spec (inc exc ipos ineg : List Pat) (ent : Entry)
    (h : acceptFile inc exc ipos ineg ent = true) :
    ((matches_any ent.rel exc || matches_any ent.rel ipos) &&
        !matches_any ent.rel ineg) = false
    ∧ (inc = [] ∨ matches_any ent.rel inc = true)
    ∧ is_text_file ent.file = true := by
  simp only [acceptFile] at h
  obtain ⟨h1, h⟩ := ite_false_eq_true h
  obtain ⟨h2, h3⟩ := ite_false_eq_true h
  refine ⟨?_, ?_, h3⟩
  · cases he1 : (matches_any ent.rel exc || matches_any ent.rel ipos) with
    | false => simp [he1]
    | true =>
      cases hn : matches_any ent.rel ineg with
      | true => simp [he1, hn]
      | false =>
        rw [he1, hn] at h1
        simp at h1
  · cases hi : inc with
    | nil => exact Or.inl rfl
    | cons q qs =>
      rw [hi] at h2
      cases hm : matches_any ent.rel (q :: qs) with
      | true => exact Or.inr rfl
      | false =>
        exfalso
        apply h2
        simp [hm]

theorem collectGo_acc_sub (root : String) (inc exc ipos ineg : List Pat)
    (items : List (Except String Entry)) :
    ∀ acc l, collectGo root inc exc ipos ineg items acc = .ok l →
      ∀ p ∈ acc, p ∈ l := by
  induction items with
  | nil =>
    intro acc l h p hp
    simp only [collectGo, Except.ok.injEq] at h
    exact h ▸ (mem_pySorted p acc).mpr hp
  | cons it rest ih =>
    intro acc l h p hp
    cases it with
    | error e => simp [collectGo] at h
    | ok ent =>
      simp only [collectGo] at h
      split at h
      · exact ih acc l h p hp
      · split at h
        · exact ih (acc ++ [ent.rel]) l h p (List.mem_append_left _ hp)
        · exact ih acc l h p hp

theorem collectGo_sound (root : String) (inc exc ipos ineg : List Pat)
    (items : List (Except String Entry)) :
    ∀ acc l, collectGo root inc exc ipos ineg items acc = .ok l →
      ∀ p ∈ l, p ∈ acc ∨
        ∃ ent : Entry, Except.ok ent ∈ items ∧ ent.rel = p ∧
          ent.file.isFile = true ∧ acceptFile inc exc ipos ineg ent = true := by
  induction items with
  | nil =>
    intro acc l h p hp
    simp only [collectGo, Except.ok.injEq] at h
    exact Or.inl ((mem_pySorted p acc).mp (h ▸ hp))
  | cons it rest ih =>
    intro acc l h p hp
    cases it with
    | error e => simp [collectGo] at h
    | ok ent =>
      simp only [collectGo] at h
      split at h
      case isTrue hskip =>
        rcases ih acc l h p hp with hin | ⟨e2, he2, hrest⟩
        · exact Or.inl hin
        · exact Or.inr ⟨e2, List.mem_cons_of_mem _ he2, hrest⟩
      case isFalse hfile =>
        split at h
        case isTrue hacc =>
          rcases ih (acc ++ [ent.rel]) l h p hp with hin | ⟨e2, he2, hrest⟩
          · rcases List.mem_append.mp hin with hin | hin
            · exact Or.inl hin
            · refine Or.inr ⟨ent, List.mem_cons_self _ _, ?_, ?_, hacc⟩
              · exact (List.mem_singleton.mp hin).symm
              · simpa using hfile
          · exact Or.inr ⟨e2, List.mem_cons_of_mem _ he2, hrest⟩
        case isFalse =>
          rcases ih acc l h p hp with hin | ⟨e2, he2, hrest⟩
          · exact Or.inl hin
          · exact Or.inr ⟨e2, List.mem_cons_of_mem _ he2, hrest⟩

theorem collectGo_complete (root : String) (inc exc ipos ineg : List Pat)
    (items : List (Except String Entry)) :
    ∀ acc l (ent : Entry), collectGo root inc exc ipos ineg items acc = .ok l →
      Except.ok ent ∈ items → ent.file.isFile = true →
      acceptFile inc exc ipos ineg ent = true → ent.rel ∈ l := by
  induction items with
  | nil =>
    intro acc l ent _ hmem _ _
    exact absurd hmem (List.not_mem_nil _)
  | cons it rest ih =>
    intro acc l ent h hmem hf hacc
    cases it with
    | error e => simp [collectGo] at h
    | ok ent2 =>
      rcases List.mem_cons.mp hmem with heq | hmem2
      · have hent : ent2 = ent := by injection heq.symm
        rw [← hent] at hf hacc ⊢
        simp only [collectGo, hf, hacc, Bool.not_true, Bool.false_eq_true, if_false,
          if_true] at h
        exact collectGo_acc_sub root inc exc ipos ineg rest _ l h ent2.rel
          (List.mem_append_right _ (List.mem_singleton.mpr rfl))
      · simp only [collectGo] at h
        split at h
        · exact ih acc l ent h hmem2 hf hacc
        · split at h
          · exact ih _ l ent h hmem2 hf hacc
          · exact ih acc l ent h hmem2 hf hacc

theorem collectGo_error (root : String) (inc exc ipos ineg : List Pat)
    (items : List (Except String Entry)) :
    ∀ acc, (∃ e, Except.error e ∈ items) →
      ∃ m, collectGo root inc exc ipos ineg items acc = .error m := by
  induction items with
  | nil =>
    intro acc h
    rcases h with ⟨e, he⟩
    exact absurd he (List.not_mem_nil _)
  | cons it rest ih =>
    intro acc h
    cases it with
    | error e => exact ⟨"Error traversing " ++ root ++ ": " ++ e, by simp [collectGo]⟩
    | ok ent =>
      rcases h with ⟨e, he⟩
      have hrest : ∃ e, Except.error e ∈ rest := by
        rcases List.mem_cons.mp he with heq | hmem
        · exact absurd heq (by simp)
        · exact ⟨e, hmem⟩
      simp only [collectGo]
      split
      · exact ih acc hrest
      · split
        · exact ih _ hrest
        · exact ih acc hrest

/-- C1 (amended): every file path accepted by `collect_files` satisfies
`(exclude_set.matches(path) OR ignore_positive.matches(path)) AND NOT
ignore_negative.matches(path) = false` — the negation override clears an
exclusion from either source — together with the include condition and
text classification (the walk yields an entry for the path that is a
regular file classified as text). -/
theorem collect_files_accepted_filter (root : String) (rootIsDir : Bool)
    (walk : List (Except String Entry)) (inc exc ipos ineg : List Pat)
    (l : List String) (p : String)
    (hok : collect_files root rootIsDir walk inc exc ipos ineg = .ok l)
    (hp : p ∈ l) :
    ((matches_any p exc || matches_any p ipos) && !matches_any p ineg) = false
    ∧ (inc = [] ∨ matches_any p inc = true)
    ∧ ∃ ent : Entry, Except.ok ent ∈ walk ∧ ent.rel = p ∧
        ent.file.isFile = true ∧ is_text_file ent.file = true := by
  unfold collect_files at hok
  split at hok
  · exact absurd hok (by simp)
  · have hs := collectGo_sound root inc exc ipos ineg walk [] l hok p hp
    rcases hs with hin | ⟨ent, hmem, hrel, hfile, hacc⟩
    · exact absurd hin (List.not_mem_nil _)
    · obtain ⟨hx, hi, ht⟩ := acceptFile_spec inc exc ipos ineg ent hacc
      rw [hrel] at hx hi
      exact ⟨hx, hi, ent, hmem, hrel, hfile, ht⟩

/-- C1 counterexample: a path that matches the exclude set and an
ignore-file negative pattern is accepted by `collect_files` (the negation
overrides even a CLI/default exclusion), yet the claim's formula
`exclude.matches OR (ignore_positive.matches AND NOT
ignore_negative.matches)` evaluates to true at it, so the claim as stated
is false on the code. -/
theorem collect_files_claim_formula_cex :
    collect_files "." true
        [Except.ok (Entry.mk "keep.log" (PFile.mk true ".log" [97] true true))]
        [] [fun s => s == "keep.log"] [] [fun s => s == "keep.log"]
      = Except.ok ["keep.log"]
    ∧ (matches_any "keep.log" [fun s => s == "keep.log"]
        || (matches_any "keep.log" []
            && !matches_any "keep.log" [fun s => s == "keep.log"])) = true := by
  constructor
  · rfl
  · rfl

/-- C1 witness: the soundness theorem applied to a concrete one-file
walk. -/
theorem collect_files_accepted_filter_witness :
    ((matches_any "src/main.py" [] || matches_any "src/main.py" []) &&
        !matches_any "src/main.py" []) = false
    ∧ (([] : List Pat) = [] ∨ matches_any "src/main.py" [] = true)
    ∧ ∃ ent : Entry,
        Except.ok ent ∈
          ([Except.ok (Entry.mk "src/main.py" (PFile.mk true ".py" [97] true true))] :
            List (Except String Entry)) ∧
        ent.rel = "src/main.py" ∧ ent.file.isFile = true ∧
        is_text_file ent.file = true :=
  collect_files_accepted_filter "." true
    [Except.ok (Entry.mk "src/main.py" (PFile.mk true ".py" [97] true true))]
    [] [] [] [] ["src/main.py"] "src/main.py" rfl (by simp)

/-- C2 (amended): `collect_files` performs no directory-level pruning —
an entry of the walk that is a regular file and passes the per-file
filter appears in the output even when it lies under a directory whose
relative path (with trailing separator) matches the exclude set; in
particular an ignore-file negation re-includes such a file. -/
theorem collect_files_accepts_under_excluded_dir (root : String)
    (walk : List (Except String Entry)) (inc exc ipos ineg : List Pat)
    (l : List String) (ent : Entry)
    (hok : collect_files root true walk inc exc ipos ineg = .ok l)
    (hmem : Except.ok ent ∈ walk) (hf : ent.file.isFile = true)
    (hacc : acceptFile inc exc ipos ineg ent = true) :
    ent.rel ∈ l := by
  unfold collect_files at hok
  rw [if_neg (by simp)] at hok
  exact collectGo_complete root inc exc ipos ineg walk [] l ent hok hmem hf hacc

/-- C2 counterexample: the exclude pattern matches the directory
`node_modules/` (its relative path with trailing separator) and the file
under it, yet the ignore-file negation re-includes the file, so a file
under an exclude-matched directory does appear in the output — directory
exclusion is not absolute. -/
theorem collect_files_no_dir_pruning_cex :
    matches_any "node_modules/"
        [fun s => strHasPre "node_modules/" s] = true
    ∧ strHasPre "node_modules/" "node_modules/pkg/index.js" = true
    ∧ collect_files "." true
        [Except.ok (Entry.mk "node_modules/pkg/index.js"
            (PFile.mk true ".js" [97] true true))]
        [] [fun s => strHasPre "node_modules/" s] []
        [fun s => s == "node_modules/pkg/index.js"]
      = Except.ok ["node_modules/pkg/index.js"] := by
  refine ⟨by decide, by decide, rfl⟩

/-- C2 witness: the completeness theorem applied to the concrete
negated-file walk. -/
theorem collect_files_accepts_under_excluded_dir_witness :
    (Entry.mk "node_modules/pkg/index.js" (PFile.mk true ".js" [97] true true)).rel ∈
      ["node_modules/pkg/index.js"] :=
  collect_files_accepts_under_excluded_dir "."
    [Except.ok (Entry.mk "node_modules/pkg/index.js" (PFile.mk true ".js" [97] true true))]
    [] [fun s => strHasPre "node_modules/" s] []
    [fun s => s == "node_modules/pkg/index.js"]
    ["node_modules/pkg/index.js"]
    (Entry.mk "node_modules/pkg/index.js" (PFile.mk true ".js" [97] true true))
    rfl (by simp) rfl rfl

/-- C8: when the root is not a directory, `collect_files` fails
immediately with the typed directory-not-found error, before any
traversal; and when an OS-level error occurs anywhere during the
traversal, the whole call fails with a typed traversal error — no partial
file list is ever returned. -/
theorem collect_files_error_handling (root : String) (rootIsDir : Bool)
    (walk : List (Except String Entry)) (inc exc ipos ineg : List Pat) :
    (rootIsDir = false →
      collect_files root rootIsDir walk inc exc ipos ineg =
        .error ("Directory not found: " ++ root))
    ∧ ((∃ e, Except.error e ∈ walk) →
        ∃ m, collect_files root rootIsDir walk inc exc ipos ineg = .error m) := by
  constructor
  · intro h
    simp [collect_files, h]
  · intro h
    cases rootIsDir with
    | false => exact ⟨"Directory not found: " ++ root, by simp [collect_files]⟩
    | true =>
      have := collectGo_error root inc exc ipos ineg walk [] h
      simpa [collect_files] using this

theorem sliceL_append (pre buf rest : List String) :
    sliceL (pre ++ buf ++ rest) (pre.length + 1) (pre.length + buf.length) = buf := by
  have h1 : pre.length + 1 - 1 = pre.length := by omega
  have h2 : pre.length + buf.length + 1 - (pre.length + 1) = buf.length := by omega
  rw [sliceL, h1, h2, List.append_assoc, List.drop_left, List.take_left]

theorem flushChunks_cons (n : Nat) (c : PyChunk) (r : List PyChunk × List String × Nat) :
    flushChunks n (c :: r.1, r.2) = c :: flushChunks n r := rfl

theorem getD_middle (pre buf : List String) (line : String) (rest : List String) :
    (pre ++ buf ++ (line :: rest)).getD (pre.length + buf.length) "" = line := by
  have hlen : (pre ++ buf).length = pre.length + buf.length := by simp
  rw [List.getD_eq_getElem?_getD, List.getElem?_append_right (le_of_eq hlen), hlen]
  simp

theorem chunkGo_master (mx : Int) (rem : List String) :
    ∀ (pre buf : List String) (i start cur : Nat),
      buf ≠ [] →
      i = pre.length + buf.length + 1 →
      start = pre.length + 1 →
      cur = sumNl buf →
      (2 ≤ buf.length → (cur : Int) ≤ mx) →
      (chunkGo mx rem i buf start cur).2.1 ≠ [] ∧
      goodChunksB (pre ++ buf ++ rem) mx start
        (flushChunks (pre ++ buf ++ rem).length (chunkGo mx rem i buf start cur)) = true := by
  induction rem with
  | nil =>
    intro pre buf i start cur hbuf hi hstart hcur hbound
    subst hi hstart hcur
    have hb1 : 1 ≤ buf.length := List.length_pos.mpr hbuf
    have hn : (pre ++ buf ++ ([] : List String)).length = pre.length + buf.length := by simp
    have hsl : sliceL (pre ++ buf) (pre.length + 1) (pre.length + buf.length) = buf := by
      simpa using sliceL_append pre buf []
    constructor
    · simpa [chunkGo] using hbuf
    · have hcov : coversB (pre.length + 1)
          [(pre.length + 1, pre.length + buf.length, joinNl buf)]
          (pre.length + buf.length) = true := by
        simp [coversB]
        omega
      have htex : textsOkB (pre ++ buf ++ ([] : List String))
          [(pre.length + 1, pre.length + buf.length, joinNl buf)] = true := by
        simp [textsOkB, hsl]
      have hbnd : boundOkB (pre ++ buf ++ ([] : List String)) mx
          [(pre.length + 1, pre.length + buf.length, joinNl buf)] = true := by
        by_cases hb2 : buf.length = 1
        · simp [boundOkB, hb2]
        · have h2 : 2 ≤ buf.length := by omega
          have hle := hbound h2
          simp [boundOkB, hsl, hle]
      have hmax : maximalOkB (pre ++ buf ++ ([] : List String)) mx
          [(pre.length + 1, pre.length + buf.length, joinNl buf)] = true := by
        simp [maximalOkB]
      simp only [chunkGo, flushChunks, List.nil_append, goodChunksB, hn,
        Bool.and_eq_true]
      exact ⟨⟨⟨hcov, htex⟩, hbnd⟩, hmax⟩
  | cons line rest ih =>
    intro pre buf i start cur hbuf hi hstart hcur hbound
    subst hi hstart hcur
    have hb1 : 1 ≤ buf.length := List.length_pos.mpr hbuf
    by_cases hc : ((sumNl buf + (line.length + 1) : Nat) : Int) > mx
    · -- the open chunk is flushed and a new one starts at this line
      have hstep : chunkGo mx (line :: rest) (pre.length + buf.length + 1) buf
            (pre.length + 1) (sumNl buf) =
          ((pre.length + 1, pre.length + buf.length, joinNl buf) ::
            (chunkGo mx rest (pre.length + buf.length + 1 + 1) [line]
              (pre.length + buf.length + 1) (line.length + 1)).1,
           (chunkGo mx rest (pre.length + buf.length + 1 + 1) [line]
              (pre.length + buf.length + 1) (line.length + 1)).2) := by
        simp only [chunkGo]
        rw [if_pos ⟨hc, hbuf⟩]
        rfl
      have hih := ih (pre ++ buf) [line] (pre.length + buf.length + 1 + 1)
        (pre.length + buf.length + 1) (line.length + 1)
        (by simp)
        (by simp)
        (by simp)
        (by simp [sumNl, nlLen])
        (by intro h2; simp at h2)
      have hlines : (pre ++ buf) ++ [line] ++ rest = pre ++ buf ++ (line :: rest) := by
        simp
      rw [hlines] at hih
      obtain ⟨ih1, ih2⟩ := hih
      simp only [goodChunksB, Bool.and_eq_true] at ih2
      obtain ⟨⟨⟨ihcov, ihtex⟩, ihbnd⟩, ihmax⟩ := ih2
      rw [hstep]
      constructor
      · exact ih1
      · rw [flushChunks_cons]
        set r := chunkGo mx rest (pre.length + buf.length + 1 + 1) [line]
          (pre.length + buf.length + 1) (line.length + 1) with hr
        set n := (pre ++ buf ++ (line :: rest)).length with hnn
        have hsl2 : sliceL (pre ++ buf ++ (line :: rest)) (pre.length + 1)
            (pre.length + buf.length) = buf := sliceL_append pre buf (line :: rest)
        obtain ⟨c2, tl, hfull⟩ : ∃ c2 tl, flushChunks n r = c2 :: tl := by
          rcases hl : r.1 with _ | ⟨a, b⟩
          · exact ⟨(r.2.2, n, joinNl r.2.1), [], by simp [flushChunks, hl]⟩
          · exact ⟨a, b ++ [(r.2.2, n, joinNl r.2.1)], by simp [flushChunks, hl]⟩
        rw [hfull] at ihcov ihtex ihbnd ihmax ⊢
        obtain ⟨s2, e2, t2⟩ := c2
        simp only [coversB, Bool.and_eq_true] at ihcov ⊢
        have hs2 : s2 = pre.length + buf.length + 1 := eq_of_beq ihcov.1.1
        have hcov2 : ((s2 == pre.length + buf.length + 1) = true ∧
            decide (pre.length + buf.length + 1 ≤ e2) = true) ∧
            coversB (e2 + 1) tl n = true := ihcov
        have hgoal : goodChunksB (pre ++ buf ++ (line :: rest)) mx (pre.length + 1)
            ((pre.length + 1, pre.length + buf.length, joinNl buf) ::
              (s2, e2, t2) :: tl) = true := by
          have hcov : coversB (pre.length + 1)
              ((pre.length + 1, pre.length + buf.length, joinNl buf) ::
                (s2, e2, t2) :: tl) n = true := by
            simp only [coversB, Bool.and_eq_true]
            exact ⟨⟨beq_self_eq_true _, decide_eq_true (by omega)⟩, hcov2⟩
          have htex : textsOkB (pre ++ buf ++ (line :: rest))
              ((pre.length + 1, pre.length + buf.length, joinNl buf) ::
                (s2, e2, t2) :: tl) = true := by
            simp only [textsOkB, List.all_cons, Bool.and_eq_true] at ihtex ⊢
            exact ⟨by rw [hsl2]; exact beq_self_eq_true _, ihtex⟩
          have hbnd : boundOkB (pre ++ buf ++ (line :: rest)) mx
              ((pre.length + 1, pre.length + buf.length, joinNl buf) ::
                (s2, e2, t2) :: tl) = true := by
            simp only [boundOkB, List.all_cons, Bool.and_eq_true] at ihbnd ⊢
            refine ⟨?_, ihbnd⟩
            by_cases hb2 : buf.length = 1
            · have he : pre.length + buf.length = pre.length + 1 := by omega
              rw [he]
              simp
            · have h2 : 2 ≤ buf.length := by omega
              have hle := hbound h2
              rw [Bool.or_eq_true]
              refine Or.inr (decide_eq_true ?_)
              rw [hsl2]
              exact hle
          have hmax : maximalOkB (pre ++ buf ++ (line :: rest)) mx
              ((pre.length + 1, pre.length + buf.length, joinNl buf) ::
                (s2, e2, t2) :: tl) = true := by
            simp only [maximalOkB, Bool.and_eq_true]
            refine ⟨?_, ihmax⟩
            rw [hsl2, hs2]
            have he : pre.length + buf.length + 1 - 1 = pre.length + buf.length := by
              omega
            rw [he, getD_middle]
            refine decide_eq_true ?_
            simp only [nlLen]
            push_cast at hc ⊢
            omega
          simp only [goodChunksB, Bool.and_eq_true, hnn]
          exact ⟨⟨⟨hcov, htex⟩, hbnd⟩, hmax⟩
        exact hgoal
    · -- the line joins the open chunk
      have hstep : chunkGo mx (line :: rest) (pre.length + buf.length + 1) buf
            (pre.length + 1) (sumNl buf) =
          chunkGo mx rest (pre.length + buf.length + 1 + 1) (buf ++ [line])
            (pre.length + 1) (sumNl buf + (line.length + 1)) := by
        simp only [chunkGo]
        rw [if_neg (fun hand => hc hand.1)]
      have hih := ih pre (buf ++ [line]) (pre.length + buf.length + 1 + 1)
        (pre.length + 1) (sumNl buf + (line.length + 1))
        (by simp)
        (by simp; omega)
        rfl
        (by rw [sumNl_append, sumNl_singleton])
        (fun _ => not_lt.mp hc)
      have hlines : pre ++ (buf ++ [line]) ++ rest = pre ++ buf ++ (line :: rest) := by
        simp
      rw [hlines] at hih
      rw [hstep]
      exact hih

theorem chunk_text_by_lines_spec (text : String) (mx : Int)
    (h : pySplitlines text ≠ []) :
    goodChunksB (pySplitlines text) mx 1 (chunk_text_by_lines text mx) = true := by
  obtain ⟨l0, rest, hl⟩ : ∃ l0 rest, pySplitlines text = l0 :: rest := by
    rcases hx : pySplitlines text with _ | ⟨a, b⟩
    · exact absurd hx h
    · exact ⟨a, b, rfl⟩
  have hfirst : chunkGo mx (l0 :: rest) 1 [] 1 0
      = chunkGo mx rest 2 [l0] 1 (0 + (l0.length + 1)) := by
    simp only [chunkGo]
    rw [if_neg (fun hand => hand.2 rfl)]
    rfl
  have hm := chunkGo_master mx rest [] [l0] 2 1 (0 + (l0.length + 1))
    (by simp) (by simp) (by simp) (by simp [sumNl, nlLen])
    (by intro h2; simp at h2)
  have hLL : ([] : List String) ++ [l0] ++ rest = l0 :: rest := by simp
  rw [hLL] at hm
  obtain ⟨hm1, hm2⟩ := hm
  have hct : chunk_text_by_lines text mx =
      flushChunks (pySplitlines text).length
        (chunkGo mx rest 2 [l0] 1 (0 + (l0.length + 1))) := by
    simp only [chunk_text_by_lines]
    rw [hl, hfirst, if_neg hm1, if_neg (by simp)]
    rfl
  rw [hct, hl]
  exact hm2

theorem boundOk_longAlone (lines : List String) (mx : Int) (cs : List PyChunk)
    (h : boundOkB lines mx cs = true) : longAloneB lines mx cs = true := by
  simp only [boundOkB, List.all_eq_true] at h
  simp only [longAloneB, List.all_eq_true]
  intro c hc
  have hc2 := h c hc
  rw [Bool.or_eq_true] at hc2 ⊢
  rcases hc2 with h1 | h1
  · exact Or.inl h1
  · refine Or.inr ?_
    rw [List.all_eq_true]
    intro l hl
    have hmem : nlLen l ≤ sumNl (sliceL lines c.1 c.2.1) := nlLen_le_sumNl hl
    have hle : ((sumNl (sliceL lines c.1 c.2.1) : Nat) : Int) ≤ mx := of_decide_eq_true h1
    refine decide_eq_true ?_
    simp only [nlLen] at hmem
    omega

/-- C5: for positive `max_chars`, `chunk_text_by_lines` tiles the line
range exactly with 1-based contiguous chunks of at least one line each
(`coversB`), every chunk's text is its whole lines joined — no mid-line
splitting (`textsOkB`), a multi-line chunk never exceeds the budget
(`boundOkB`), each chunk was closed exactly because adding the next line
would exceed `max_chars` (`maximalOkB`), and a line longer than
`max_chars` sits alone in its own chunk (`longAloneB`). -/
theorem chunk_text_by_lines_correct (text : String) (max_chars : Int)
    (_hpos : 0 < max_chars) (hlines : pySplitlines text ≠ []) :
    coversB 1 (chunk_text_by_lines text max_chars) (pySplitlines text).length = true
    ∧ textsOkB (pySplitlines text) (chunk_text_by_lines text max_chars) = true
    ∧ boundOkB (pySplitlines text) max_chars (chunk_text_by_lines text max_chars) = true
    ∧ maximalOkB (pySplitlines text) max_chars (chunk_text_by_lines text max_chars) = true
    ∧ longAloneB (pySplitlines text) max_chars (chunk_text_by_lines text max_chars) = true := by
  have h := chunk_text_by_lines_spec text max_chars hlines
  simp only [goodChunksB, Bool.and_eq_true] at h
  obtain ⟨⟨⟨h1, h2⟩, h3⟩, h4⟩ := h
  exact ⟨h1, h2, h3, h4, boundOk_longAlone _ _ _ h3⟩

/-- C5 witness: the fixed-lines theorem at a concrete three-line text
with a budget that forces two chunks. -/
theorem chunk_text_by_lines_correct_witness :
    coversB 1 (chunk_text_by_lines "aaaa\nbb\ncc" 6)
        (pySplitlines "aaaa\nbb\ncc").length = true
    ∧ textsOkB (pySplitlines "aaaa\nbb\ncc") (chunk_text_by_lines "aaaa\nbb\ncc" 6) = true
    ∧ boundOkB (pySplitlines "aaaa\nbb\ncc") 6 (chunk_text_by_lines "aaaa\nbb\ncc" 6) = true
    ∧ maximalOkB (pySplitlines "aaaa\nbb\ncc") 6 (chunk_text_by_lines "aaaa\nbb\ncc" 6) = true
    ∧ longAloneB (pySplitlines "aaaa\nbb\ncc") 6 (chunk_text_by_lines "aaaa\nbb\ncc" 6) = true :=
  chunk_text_by_lines_correct "aaaa\nbb\ncc" 6 (by decide) (by decide)

/-- C4 (amended): for the `lines` strategy and the whole-file strategy
(any `chunk_by` other than the Python structural ones), the chunks of
`generate_rows` tile the file's nonempty line sequence exactly — no line
missing, no overlap, every chunk with `start ≤ end`; the structural
strategy (`chunk_python_by_defs`) does not satisfy this, as it omits
lines outside top-level constructs. -/
theorem generate_chunks_tile (language chunk_by : String)
    (parseRes : Option (List (Nat × Nat))) (text : String) (max_chars : Int)
    (hstrat : ¬(language = "python" ∧ (chunk_by = "functions" ∨ chunk_by = "classes")))
    (hlines : pySplitlines text ≠ []) :
    coversB 1 (generate_chunks language chunk_by parseRes text max_chars)
      (pySplitlines text).length = true := by
  have hcov : ∀ mx2 : Int,
      coversB 1 (chunk_text_by_lines text mx2) (pySplitlines text).length = true := by
    intro mx2
    have h := chunk_text_by_lines_spec text mx2 hlines
    simp only [goodChunksB, Bool.and_eq_true] at h
    exact h.1.1.1
  unfold generate_chunks
  rw [if_neg hstrat]
  by_cases hline : chunk_by = "lines"
  · rw [if_pos hline]
    exact hcov max_chars
  · rw [if_neg hline]
    by_cases hlen : (text.length : Int) > max_chars
    · rw [if_pos hlen]
      exact hcov max_chars
    · rw [if_neg hlen]
      have hpos : 0 < (pySplitlines text).length := List.length_pos.mpr hlines
      rw [if_pos hpos]
      simp only [coversB, Bool.and_eq_true]
      exact ⟨⟨beq_self_eq_true _, decide_eq_true (by omega)⟩, beq_self_eq_true _⟩

/-- C4 witness: the tiling theorem at a concrete two-line text under the
`lines` strategy. -/
theorem generate_chunks_tile_witness :
    coversB 1 (generate_chunks "text" "lines" none "a\nb" 10)
      (pySplitlines "a\nb").length = true :=
  generate_chunks_tile "text" "lines" none "a\nb" 10 (by decide) (by decide)

/-- C4 counterexample: on the three-line Python source
`import os\ndef f():\n    pass` (whose only top-level construct spans
lines 2-3, so `ast.parse` yields the single boundary `(2, 3)`), the
structural chunker returns one chunk covering lines 2-3 only: line 1 is
in no chunk, so chunks do not reconstruct the file's line sequence. -/
theorem chunk_python_by_defs_gap_cex :
    chunk_python_by_defs "import os\ndef f():\n    pass" 16000 (some [(2, 3)])
      = [(2, 3, "def f():\\n    pass")]
    ∧ (pySplitlines "import os\ndef f():\n    pass").length = 3
    ∧ ((chunk_python_by_defs "import os\ndef f():\n    pass" 16000
          (some [(2, 3)])).all
        (fun c => !(decide (c.1 ≤ 1) && decide (1 ≤ c.2.1)))) = true := by
  refine ⟨rfl, rfl, rfl⟩

/-- C9: the fixed-lines chunker never returns an empty chunk list, and on
the empty string it returns exactly the single chunk `(1, 1, "")`, a
chunk labeled as covering line 1 although the text has zero lines. -/
theorem chunk_text_by_lines_nonempty (text : String) (max_chars : Int) :
    chunk_text_by_lines text max_chars ≠ []
    ∧ chunk_text_by_lines "" max_chars = [(1, 1, "")] := by
  constructor
  · by_cases h : pySplitlines text = []
    · simp [chunk_text_by_lines, h, chunkGo]
    · intro hnil
      have hg := chunk_text_by_lines_spec text max_chars h
      rw [hnil] at hg
      have h1 : coversB 1 ([] : List PyChunk) (pySplitlines text).length = true := by
        simp only [goodChunksB, Bool.and_eq_true] at hg
        exact hg.1.1.1
      simp only [coversB, beq_iff_eq] at h1
      exact h (List.length_eq_zero.mp (by omega))
  · rfl

/-- C3 counterexample: a regular `.py` file whose single content byte is
a null byte — the extension is in the allow-list, yet `is_text_file`
returns false: for nonzero sizes the extension does not short-circuit the
content sniff. -/
theorem is_text_file_ext_no_shortcircuit_cex :
    strLower ".py" ∈ TEXT_EXTS
    ∧ is_text_file (PFile.mk true ".py" [0] true true) = false := by
  refine ⟨by decide, by decide⟩

/-- C3 witness: the empty-file extension rule at a concrete empty `.PY`
file (even one whose `open` would fail — the extension branch returns
before any read). -/
theorem is_text_file_ext_allows_empty_witness :
    is_text_file (PFile.mk true ".PY" [] true false) = true :=
  is_text_file_ext_allows_empty (PFile.mk true ".PY" [] true false)
    rfl rfl rfl (Or.inl (by decide))

end Paleae
